import Mathlib

/-!
Verification development for the swl-argparse command-line parsing engine
(`src/index.ts`).  The engine is embedded shallowly: every handler is a record
of a `scan` function and a `value` function, exactly as in the source class
`Handler`; the parser scan loop (`CliParser.doScan`), the extraction pass
(`CliParser.doValues`), the token normalizer (`expand_flags`) and the entry
point (`CliParser.parse`) are translated function by function.

Modelling notes, each justified against the source:
* JavaScript strings are Lean `String`s; `arg[0] === "-"` is
  `arg.toList.head? = some '-'` (an empty string has no first character, so
  the comparison is false, as in JS where `undefined !== "-"`).
* A scan returning `string[] | undefined | MatchError` becomes `SRes` with
  constructors `claimed`, `decline`, `fail`.
* A value returning `T | MatchError` (or throwing) becomes `VRes` with
  constructors `val` (where the JS `undefined` result is `val .undef`),
  `fail`, and `thrown` (an uncaught `throw`, distinct from a `MatchError`).
* The `while` loop of `doScan` is written with explicit fuel
  `args.length + 1`.  Every handler produced by the library claims at least
  one token whenever the loop invokes it (the loop only scans at
  `pos < args.length`), so the loop runs at most `args.length + 1` times and
  the fuel-exhaustion branch is unreachable; it is kept only to make the
  function total.
* `oneof` in the source records `(matched sub-parser, its accumulator map)`
  in a `WeakMap` keyed by the identity of the claimed slice, and
  `doValues` later looks the slice up again.  Identity-keyed storage is
  modelled by carrying the recorded information on the claimed group itself:
  a claimed group is a `Claimed` record of its tokens plus an optional `tag`
  holding the delegated extraction result (`doValues` of the matched
  sub-parser on its recorded accumulator map, which is a pure computation,
  so computing it at scan time is observationally identical to the deferred
  lookup).  Handlers other than `oneof` always set the tag to `none`, and
  the `none` case of `oneof`'s value corresponds to the source line
  `if (!opt) return undefined`.
-/

namespace SwlArg

/-- Runtime values a handler extraction can produce: strings (`param`/`arg`),
booleans (`flag`), string literals (`expect`), sequences (`repeat`), nested
result objects (`oneof` delegating to a sub-parser), and the JS `undefined`. -/
inductive Value where
  | str (s : String)
  | bool (b : Bool)
  | list (vs : List Value)
  | obj (fields : List (String × Value))
  | undef

/-- Result of a handler `value` function: a value (`T`, with the JS
`undefined` written `val .undef`), a recoverable `MatchError`, or an uncaught
hard `throw` (the `throw new Error("?!")` branch of `oneof`). -/
inductive VRes where
  | val (v : Value)
  | fail (msg : String)
  | thrown

/-- One claimed token group.  `toks` is the slice of tokens the scan call
consumed; `tag` models the identity-keyed `WeakMap` side table of `oneof`
(see the module docstring): `some r` records the delegated extraction result
of the sub-parser that matched, `none` for every other handler. -/
structure Claimed where
  toks : List String
  tag : Option VRes

/-- Result of a handler `scan` call: `string[] | undefined | MatchError`. -/
inductive SRes where
  | claimed (g : Claimed)
  | decline
  | fail (msg : String)

/-- A handler: its scan closure, its value closure, and the metadata the
algorithms read (`opts.key` and `opts.activators`; `help`/`group` are
display-only and never consulted, so they are omitted). -/
structure Handler where
  scan : List String → Nat → List Claimed → SRes
  value : List Claimed → VRes
  key : String
  activators : Option (List String)

/-- `as(key)` replaces an empty activator list by `["--" + key]`. -/
def effectiveActivators (activators : List String) (key : String) : List String :=
  if activators = [] then ["--" ++ key] else activators

/-- The message `` `"${activators}" can only appear once` `` (a JS array
interpolates as its elements joined by bare commas). -/
def onceMsg (acts : List String) : String :=
  "\"" ++ String.intercalate "," acts ++ "\" can only appear once"

/-- The message `` `"${activators ?? key}" must be specified` `` of `required`. -/
def requiredMsg (h : Handler) : String :=
  "\"" ++ (match h.activators with
           | some acts => String.intercalate "," acts
           | none => h.key) ++ "\" must be specified"

/-- `flag(...activators).as(key)`: scan claims the one token at `pos` iff it
is an activator; value is presence, failing if claimed more than once. -/
def flag (activators : List String) (key : String) : Handler :=
  let acts := effectiveActivators activators key
  { scan := fun args pos _ =>
      match args[pos]? with
      | some a => if a ∈ acts then .claimed ⟨[a], none⟩ else .decline
      | none => .decline
    value := fun groups =>
      if groups.length > 1 then .fail (onceMsg acts)
      else .val (.bool (groups.length != 0))
    key := key
    activators := some acts }

/-- `param(...activators).as(key)`: scan claims `args.slice(pos, pos+1)` or
`args.slice(pos, pos+2)` — the second token is captured unless absent or
beginning with `-`; value is the captured token (`args[0]?.[1]`), failing if
claimed more than once. -/
def param (activators : List String) (key : String) : Handler :=
  let acts := effectiveActivators activators key
  { scan := fun args pos _ =>
      match args[pos]? with
      | some a =>
        if a ∈ acts then
          let stop : Nat :=
            match args[pos + 1]? with
            | none => pos + 1
            | some next => if next.toList.head? = some '-' then pos + 1 else pos + 2
          .claimed ⟨(args.drop pos).take (stop - pos), none⟩
        else .decline
      | none => .decline
    value := fun groups =>
      if groups.length > 1 then .fail (onceMsg acts)
      else
        match groups.head? with
        | some g =>
          match g.toks[1]? with
          | some v => .val (.str v)
          | none => .val .undef
        | none => .val .undef
    key := key
    activators := some acts }

/-- `arg(key)`: scan claims the token at `pos` unconditionally, but only if
this handler has claimed nothing yet and `pos` is in bounds (the source test
`pos > args.length - 1` on JS numbers is `args.length ≤ pos`); value is the
first token of the first group (`args[0]?.[0]`). -/
def arg (key : String) : Handler :=
  { scan := fun args pos acc =>
      if acc.length > 0 ∨ args.length ≤ pos then .decline
      else .claimed ⟨[args.getD pos ""], none⟩
    value := fun groups =>
      match groups.head? with
      | some g =>
        match g.toks.head? with
        | some t => .val (.str t)
        | none => .val .undef
      | none => .val .undef
    key := key
    activators := none }

/-- `expect(value).as(key)`: scan declines once it has claimed, fails if the
token at `pos` differs from the literal (also when the position is past the
end: in JS `undefined !== value`), otherwise claims it; value is the literal
constant, whatever was claimed. -/
def expect (lit : String) (key : String) : Handler :=
  { scan := fun args pos acc =>
      if acc.length > 0 then .decline
      else
        match args[pos]? with
        | some a =>
          if a = lit then .claimed ⟨[a], none⟩
          else .fail ("expected \"" ++ lit ++ "\"")
        | none => .fail ("expected \"" ++ lit ++ "\"")
    value := fun _ => .val (.str lit)
    key := key
    activators := none }

/-- Result of one pass of the inner `for (let h of this.handlers)` loop:
the first handler (by index) that claimed, a propagated failure, or nothing. -/
inductive PassRes where
  | claimedAt (idx : Nat) (g : Claimed)
  | nothing
  | fail (msg : String)

/-- One pass over the handler list, each handler scanned with its own
accumulator (`accs` is positionally parallel to `hs`, modelling the
`Map<Handler, string[][]>` of the source for pairwise-distinct handlers). -/
def doScanPass (hs : List Handler) (accs : List (List Claimed))
    (args : List String) (pos : Nat) : PassRes :=
  match hs, accs with
  | [], _ => .nothing
  | _ :: _, [] => .nothing
  | h :: hrest, acc :: arest =>
    match h.scan args pos acc with
    | .claimed g => .claimedAt 0 g
    | .fail m => .fail m
    | .decline =>
      match doScanPass hrest arest args pos with
      | .claimedAt i g => .claimedAt (i + 1) g
      | r => r

/-- `acc.push(res)` on the `i`-th handler's accumulator. -/
def appendAcc (accs : List (List Claimed)) (i : Nat) (g : Claimed) :
    List (List Claimed) :=
  match accs, i with
  | [], _ => []
  | acc :: rest, 0 => (acc ++ [g]) :: rest
  | acc :: rest, n + 1 => acc :: appendAcc rest n g

/-- The `scanargs: while (pos < l)` loop of `doScan`, with explicit fuel (see
the module docstring: `args.length + 1` fuel always suffices, the `0` branch
is dead code kept for totality). -/
def doScanLoop (hs : List Handler) (args : List String) :
    Nat → Nat → List (List Claimed) → Except String (Nat × List (List Claimed))
  | 0, _, _ => .error "out of fuel"
  | fuel + 1, pos, accs =>
    if pos < args.length then
      match doScanPass hs accs args pos with
      | .fail m => .error m
      | .nothing => .ok (pos, accs)
      | .claimedAt i g => doScanLoop hs args fuel (pos + g.toks.length) (appendAcc accs i g)
    else .ok (pos, accs)

/-- `CliParser.doScan`: fresh empty accumulators, the scan loop, then the
structural guard `if (pos === init && pos < args.length)` producing the
`"nothing was consumed"` failure. -/
def doScan (hs : List Handler) (args : List String) (pos : Nat) :
    Except String (Nat × List (List Claimed)) :=
  match doScanLoop hs args (args.length + 1) pos (hs.map fun _ => []) with
  | .error m => .error m
  | .ok (pos2, accs) =>
    if pos2 = pos ∧ pos2 < args.length then .error "nothing was consumed"
    else .ok (pos2, accs)

/-- `CliParser.doValues`: one `value` call per handler in declaration order,
short-circuiting on the first `MatchError` (or propagating a hard throw);
otherwise the key→value record, fields in declaration order.  (The source
assigns into one JS object, where a later duplicate key would overwrite an
earlier one; the field list keeps both, which is observationally identical
for parsers with pairwise-distinct keys.) -/
def doValues (hs : List Handler) (accs : List (List Claimed)) : VRes :=
  match hs with
  | [] => .val (.obj [])
  | h :: rest =>
    match h.value (accs.headD []) with
    | .fail m => .fail m
    | .thrown => .thrown
    | .val v =>
      match doValues rest accs.tail with
      | .val (.obj fields) => .val (.obj ((h.key, v) :: fields))
      | r => r

/-- The `for (let o of opt)` loop of `oneof`'s scan: try each sub-parser's
full `doScan` at `pos` in order; on the first success build the claimed slice
`args.slice(pos, try_res.pos)` tagged with the recorded delegation (see the
module docstring); collect every failure message otherwise. -/
def tryOneof (opts : List (List Handler)) (args : List String) (pos : Nat) :
    Except (List String) Claimed :=
  match opts with
  | [] => .error []
  | o :: rest =>
    match doScan o args pos with
    | .ok (pos2, accs) =>
      .ok ⟨(args.drop pos).take (pos2 - pos), some (doValues o accs)⟩
    | .error m =>
      match tryOneof rest args pos with
      | .ok g => .ok g
      | .error errs => .error (m :: errs)

/-- `oneof(...opt).as(key)`: scan is `tryOneof` (all failure messages joined
by `", "` when no alternative matches); value throws on more than one claimed
group (`throw new Error("?!")`), is `undefined` on none, and otherwise
returns the recorded delegated extraction (`wm.get(args[0])`, the `none` tag
case being the source's `if (!opt) return undefined`). -/
def oneof (opts : List (List Handler)) (key : String) : Handler :=
  { scan := fun args pos _ =>
      match tryOneof opts args pos with
      | .ok g => .claimed g
      | .error errs => .fail (String.intercalate ", " errs)
    value := fun groups =>
      if groups.length > 1 then .thrown
      else
        match groups with
        | [] => .val .undef
        | g :: _ =>
          match g.tag with
          | some r => r
          | none => .val .undef
    key := key
    activators := none }

/-- `required()`: a `MatchError` passes through, an absent (`== null`) value
becomes the `must be specified` failure, anything else passes through. -/
def Handler.required (h : Handler) : Handler :=
  { h with value := fun groups =>
      match h.value groups with
      | .fail m => .fail m
      | .thrown => .thrown
      | .val .undef => .fail (requiredMsg h)
      | .val v => .val v }

/-- `default(v)`: an absent (`== null`) value becomes `v`; failures and
present values pass through unchanged. -/
def Handler.withDefault (h : Handler) (v : Value) : Handler :=
  { h with value := fun groups =>
      match h.value groups with
      | .val .undef => .val v
      | r => r }

/-- `map(fn)`: absent stays absent, failures pass through, a present value
goes through `fn`. -/
def Handler.mapValue (h : Handler) (f : Value → Value) : Handler :=
  { h with value := fun groups =>
      match h.value groups with
      | .val .undef => .val .undef
      | .fail m => .fail m
      | .thrown => .thrown
      | .val v => .val (f v) }

/-- The extraction loop of `repeat()`: `this.value([s])` per group in order,
skipping absent results, short-circuiting on the first failure (or throw),
collecting the rest in order. -/
def repeatValues (hval : List Claimed → VRes) :
    List Claimed → List Value → VRes
  | [], acc => .val (.list acc)
  | g :: rest, acc =>
    match hval [g] with
    | .val .undef => repeatValues hval rest acc
    | .fail m => .fail m
    | .thrown => .thrown
    | .val v => repeatValues hval rest (acc ++ [v])

/-- `repeat()`: value collects per-group extractions (`repeatValues`); scan
delegates to the base scan with an empty accumulator, so the base handler's
single-occurrence guard never fires during scanning. -/
def Handler.repeated (h : Handler) : Handler :=
  { h with
    scan := fun args pos _ => h.scan args pos []
    value := fun groups => repeatValues h.value groups [] }

/-- Expansion of one token after the leading single `-`: one `-`-prefixed
token per character, until an `=` turns the remainder into one value token. -/
def expandShort : List Char → List String
  | [] => []
  | c :: rest =>
    if c = '=' then [String.mk rest]
    else ("-" ++ String.mk [c]) :: expandShort rest

/-- Split a `--name=value` token at its first `=` (`arg.search("=")`). -/
def splitLongEq (a : String) : List String :=
  let cs := a.toList
  let i := cs.findIdx (fun c => c = '=')
  [String.mk (cs.take i), String.mk (cs.drop (i + 1))]

/-- The per-token body of the `expand_flags` loop. -/
def expandToken (a : String) : List String :=
  match a.toList with
  | '-' :: '-' :: _ => if a.toList.contains '=' then splitLongEq a else [a]
  | '-' :: rest => expandShort rest
  | _ => [a]

/-- `expand_flags(argv)`: the accumulating loop pushing each token's
expansion onto `res`. -/
def expand_flags (argv : List String) : List String :=
  argv.foldl (fun res a => res ++ expandToken a) []

/-- Outcome of `CliParser.parse`: the result object, a thrown
`match error: ...` (carrying the `MatchError` message), the
unrecognized-argument path (`console.error` + `process.exit(1)`), or an
uncaught hard throw from extraction. -/
inductive ParseRes where
  | ok (v : Value)
  | matchErr (msg : String)
  | unrecognized (tok : String)
  | thrown

/-- `CliParser.parse`: normalize (`args` below is `expand_flags argv`), scan
from 0, require full consumption, extract. -/
def parse (hs : List Handler) (argv : List String) : ParseRes :=
  match doScan hs (expand_flags argv) 0 with
  | .error m => .matchErr m
  | .ok (pos, accs) =>
    if pos ≠ (expand_flags argv).length then .unrecognized ((expand_flags argv).getD pos "")
    else
      match doValues hs accs with
      | .fail m => .matchErr m
      | .thrown => .thrown
      | .val v => .ok v

/-! ### Helper lemmas -/

/-- A pass in which every handler declines (all accumulators still empty, as
on the first iteration of the scan loop) claims nothing. -/
lemma doScanPass_map_nil_nothing (hs : List Handler) (args : List String) (pos : Nat)
    (h : ∀ hd ∈ hs, hd.scan args pos [] = .decline) :
    doScanPass hs (hs.map fun _ => []) args pos = .nothing := by
  induction hs with
  | nil => rfl
  | cons hd rest ih =>
    simp only [List.map_cons, doScanPass]
    rw [h hd (by simp), ih (fun hd2 hm => h hd2 (by simp [hm]))]

/-- Dropping at a position known to hold `a` uncovers `a`. -/
lemma drop_cons_of_getElem? {α : Type} {l : List α} {pos : Nat} {a : α}
    (h : l[pos]? = some a) : l.drop pos = a :: l.drop (pos + 1) := by
  obtain ⟨hlt, hget⟩ := List.getElem?_eq_some.mp h
  rw [List.drop_eq_getElem_cons hlt, hget]

/-- The accumulating loop of `expand_flags` is the concatenation of the
per-token expansions. -/
lemma expand_flags_foldl (argv res : List String) :
    argv.foldl (fun r a => r ++ expandToken a) res = res ++ (argv.map expandToken).flatten := by
  induction argv generalizing res with
  | nil => simp
  | cons a rest ih => simp [ih, List.append_assoc]

/-! ### Claim theorems -/

/-- C2 (code-bug evidence): `oneof`'s scan never consults its accumulator, so
on `["lit","lit"]` the scan loop lets the single `oneof` handler claim two
groups; extraction then takes the `args.length > 1` branch of `oneof`'s value
function — the source's `throw new Error("?!")` — so the whole parse ends in
the hard throw, refuting the unreachability of that branch. -/
theorem oneof_second_group_reaches_throw :
    parse [oneof [[expect "lit" "k"]] "alt"] ["lit", "lit"] = .thrown
    ∧ doScan [oneof [[expect "lit" "k"]] "alt"] ["lit", "lit"] 0
        = .ok (2, [[⟨["lit"], some (.val (.obj [("k", .str "lit")]))⟩,
                    ⟨["lit"], some (.val (.obj [("k", .str "lit")]))⟩]]) :=
  ⟨rfl, rfl⟩

/-- C10: the value function of `expect(lit).as(key)` ignores its accumulator
and returns the literal constant, and a parse of the empty token list against
a parser holding only that handler succeeds, reporting the literal as the
key's value even though the literal never appeared in the input. -/
theorem expect_value_constant (lit key : String) (groups : List Claimed) :
    (expect lit key).value groups = .val (.str lit)
    ∧ parse [expect lit key] [] = .ok (.obj [(key, .str lit)]) :=
  ⟨rfl, rfl⟩

/-- C5: `expand_flags` is the order-preserving concatenation of per-token
expansions; a single-dash token is split into one `-`-prefixed token per
character with everything after an `=` becoming one final value token; a
`--` token with `=` is split at the first `=`; every other token passes
through unchanged; and the four concrete round-trips of the specification. -/
theorem expand_flags_spec :
    (∀ argv, expand_flags argv = (argv.map expandToken).flatten)
    ∧ expand_flags ["-abc"] = ["-a", "-b", "-c"]
    ∧ expand_flags ["-a=5"] = ["-a", "5"]
    ∧ expand_flags ["--foo=bar"] = ["--foo", "bar"]
    ∧ expand_flags ["pos"] = ["pos"]
    ∧ (∀ a, a.toList.head? ≠ some '-' → expandToken a = [a])
    ∧ (∀ a rest, a.toList = '-' :: '-' :: rest → a.toList.contains '=' = false →
        expandToken a = [a]) := by
  refine ⟨fun argv => by simpa using expand_flags_foldl argv [], rfl, rfl, rfl, rfl, ?_, ?_⟩
  · intro a hne
    unfold expandToken
    rcases hc : a.toList with _ | ⟨c, rest⟩
    · rfl
    · have hcne : c ≠ '-' := by
        rw [hc] at hne
        simpa using hne
      split
      · next heq => injection heq with h1 _; exact absurd h1 hcne
      · next heq => injection heq with h1 _; exact absurd h1 hcne
      · rfl
  · intro a rest hc hcontains
    unfold expandToken
    rw [hc] at hcontains
    rw [hc]
    simp only [hcontains]
    simp

/-- C3 (counterexample to the claim as stated): against a parser whose only
handler is `flag("-v")` — which plainly does not match `"--unknown"` — the
parse fails through the thrown `"nothing was consumed"` match error of the
scan phase, not through the unrecognized-trailing-argument condition: the
unrecognized path is reachable only after at least one token was consumed. -/
theorem parse_unknown_token_cex :
    parse [flag ["-v"] "v"] ["--unknown"] = .matchErr "nothing was consumed" := rfl

/-- C3 (amended): for every parser in which every handler's scan declines the
token `"--unknown"`, `parse(["--unknown"])` fails at the top level — it does
not silently succeed — but through the structural `"nothing was consumed"`
match error (a thrown fatal error), because the scan consumed nothing, so the
unrecognized-trailing-argument branch (which requires a successful scan that
stopped early) is never reached. -/
theorem parse_unknown_token_stall_error (hs : List Handler)
    (h : ∀ hd ∈ hs, hd.scan ["--unknown"] 0 [] = .decline) :
    parse hs ["--unknown"] = .matchErr "nothing was consumed" := by
  have hloop : doScanLoop hs ["--unknown"] (["--unknown"].length + 1) 0 (hs.map fun _ => [])
      = .ok (0, hs.map fun _ => []) := by
    unfold doScanLoop
    rw [if_pos (by norm_num), doScanPass_map_nil_nothing hs _ _ h]
  have hscan : doScan hs ["--unknown"] 0 = .error "nothing was consumed" := by
    unfold doScan
    rw [hloop]
    norm_num
  unfold parse
  rw [show expand_flags ["--unknown"] = ["--unknown"] from rfl, hscan]

/-- Witness for the amended C3 theorem at a concrete parser. -/
theorem parse_unknown_token_stall_error_witness :
    parse [flag ["-w"] "w"] ["--unknown"] = .matchErr "nothing was consumed" :=
  parse_unknown_token_stall_error [flag ["-w"] "w"] (by
    intro hd hm
    rw [List.mem_singleton] at hm
    subst hm
    rfl)

/-- C4: the scan of `param` claims at `pos` iff the token there is one of the
(effective) activators; the claimed group holds that token plus, iff it
exists and does not begin with `-`, the token at `pos+1` as captured value;
extraction of a single group returns its captured second token, is absent
when nothing was claimed or no value token was captured, and is the
`can only appear once` failure when more than one group was claimed. -/
theorem param_scan_value_spec (activators : List String) (key : String)
    (args : List String) (pos : Nat) (acc : List Claimed) :
    ((∃ g, (param activators key).scan args pos acc = .claimed g)
        ↔ ∃ a, args[pos]? = some a ∧ a ∈ effectiveActivators activators key)
    ∧ (∀ a, args[pos]? = some a → a ∈ effectiveActivators activators key →
        (param activators key).scan args pos acc = .claimed
          ⟨a :: (match args[pos + 1]? with
                 | some next => if next.toList.head? = some '-' then [] else [next]
                 | none => []), none⟩)
    ∧ (param activators key).value [] = .val .undef
    ∧ (∀ g, (param activators key).value [g]
        = match g.toks[1]? with
          | some v => .val (.str v)
          | none => .val .undef)
    ∧ (∀ g1 g2 gs, (param activators key).value (g1 :: g2 :: gs)
        = .fail (onceMsg (effectiveActivators activators key))) := by
  have hclaim : ∀ a, args[pos]? = some a → a ∈ effectiveActivators activators key →
      (param activators key).scan args pos acc = .claimed
        ⟨a :: (match args[pos + 1]? with
               | some next => if next.toList.head? = some '-' then [] else [next]
               | none => []), none⟩ := by
    intro a hget hmem
    unfold param
    dsimp only
    rw [hget]
    dsimp only
    rw [if_pos hmem]
    have hdrop := drop_cons_of_getElem? hget
    cases hnext : args[pos + 1]? with
    | none =>
      dsimp only
      rw [show pos + 1 - pos = 1 by omega, hdrop]
      rfl
    | some next =>
      by_cases hdash : next.toList.head? = some '-'
      · dsimp only
        rw [if_pos hdash, show pos + 1 - pos = 1 by omega, hdrop]
        rw [if_pos hdash]
        rfl
      · dsimp only
        rw [if_neg hdash, show pos + 2 - pos = 2 by omega, hdrop, drop_cons_of_getElem? hnext]
        rw [if_neg hdash]
        rfl
  have hmulti : ∀ (g1 g2 : Claimed) (gs : List Claimed),
      (param activators key).value (g1 :: g2 :: gs)
        = .fail (onceMsg (effectiveActivators activators key)) := by
    intro g1 g2 gs
    unfold param
    dsimp only
    rw [if_pos (by simp only [List.length_cons]; omega)]
  refine ⟨⟨?_, ?_⟩, hclaim, rfl, fun g => rfl, hmulti⟩
  · rintro ⟨g, hg⟩
    unfold param at hg
    dsimp only at hg
    cases hget : args[pos]? with
    | none => rw [hget] at hg; cases hg
    | some a =>
      rw [hget] at hg
      dsimp only at hg
      by_cases hmem : a ∈ effectiveActivators activators key
      · exact ⟨a, rfl, hmem⟩
      · rw [if_neg hmem] at hg; cases hg
  · rintro ⟨a, hget, hmem⟩
    exact ⟨_, hclaim a hget hmem⟩

/-- Witness for C4 at `param("--out").as("o")`: with a following plain token
the value is captured; with a following `-x` it is not. -/
theorem param_scan_value_spec_witness :
    (param ["--out"] "o").scan ["--out", "file.txt"] 0 [] = .claimed ⟨["--out", "file.txt"], none⟩
    ∧ (param ["--out"] "o").scan ["--out", "-x"] 0 [] = .claimed ⟨["--out"], none⟩
    ∧ (param ["--out"] "o").value [⟨["--out", "file.txt"], none⟩] = .val (.str "file.txt") := by
  refine ⟨?_, ?_, ?_⟩
  · have h := (param_scan_value_spec ["--out"] "o" ["--out", "file.txt"] 0 []).2.1
      "--out" rfl (by simp [effectiveActivators])
    simpa using h
  · have h := (param_scan_value_spec ["--out"] "o" ["--out", "-x"] 0 []).2.1
      "--out" rfl (by simp [effectiveActivators])
    simpa using h
  · have h := ((param_scan_value_spec ["--out"] "o" ["--out", "-x"] 0 []).2.2.2.1)
      ⟨["--out", "file.txt"], none⟩
    simpa using h

/-- When every alternative's scan fails, `tryOneof` collects the failure
messages in order. -/
lemma tryOneof_all_error (args : List String) (pos : Nat) :
    ∀ (opts : List (List Handler)) (ms : List String),
    opts.map (fun o => doScan o args pos) = ms.map Except.error →
    tryOneof opts args pos = .error ms := by
  intro opts
  induction opts with
  | nil =>
    intro ms h
    cases ms with
    | nil => rfl
    | cons m ms2 => simp at h
  | cons o rest ih =>
    intro ms h
    cases ms with
    | nil => simp at h
    | cons m ms2 =>
      simp only [List.map_cons, List.cons.injEq] at h
      obtain ⟨h1, h2⟩ := h
      unfold tryOneof
      simp only [h1, ih ms2 h2]

/-- The first alternative whose scan succeeds determines `tryOneof`'s result:
the claimed slice and the recorded delegation to that alternative. -/
lemma tryOneof_first_success (args : List String) (pos : Nat) :
    ∀ (pre : List (List Handler)) (o : List Handler) (post : List (List Handler))
      (ms : List String) (pos2 : Nat) (accs : List (List Claimed)),
    pre.map (fun p => doScan p args pos) = ms.map Except.error →
    doScan o args pos = .ok (pos2, accs) →
    tryOneof (pre ++ o :: post) args pos
      = .ok ⟨(args.drop pos).take (pos2 - pos), some (doValues o accs)⟩ := by
  intro pre
  induction pre with
  | nil =>
    intro o post ms pos2 accs _ hok
    rw [List.nil_append]
    unfold tryOneof
    simp only [hok]
  | cons p rest ih =>
    intro o post ms pos2 accs hpre hok
    cases ms with
    | nil => simp at hpre
    | cons m ms2 =>
      simp only [List.map_cons, List.cons.injEq] at hpre
      obtain ⟨h1, h2⟩ := hpre
      rw [List.cons_append]
      unfold tryOneof
      simp only [h1, ih o post ms2 pos2 accs h2 hok]

/-- C6: `oneof`'s scan tries each alternative's full scan at the current
position in listed order; the first success determines both the claimed token
slice (`args.slice(pos, try_res.pos)`) and the value later extracted — the
delegated extraction of that alternative over its recorded accumulator map —
and if every alternative fails, the scan fails with all their messages joined
by `", "`. -/
theorem oneof_first_match_spec (opts : List (List Handler)) (key : String)
    (args : List String) (pos : Nat) (acc : List Claimed) :
    (∀ ms : List String, opts.map (fun o => doScan o args pos) = ms.map Except.error →
      (oneof opts key).scan args pos acc = .fail (String.intercalate ", " ms))
    ∧ (∀ (pre : List (List Handler)) (o : List Handler) (post : List (List Handler))
        (ms : List String) (pos2 : Nat) (accs : List (List Claimed)),
        opts = pre ++ o :: post →
        pre.map (fun p => doScan p args pos) = ms.map Except.error →
        doScan o args pos = .ok (pos2, accs) →
        (oneof opts key).scan args pos acc
          = .claimed ⟨(args.drop pos).take (pos2 - pos), some (doValues o accs)⟩
        ∧ (oneof opts key).value [⟨(args.drop pos).take (pos2 - pos), some (doValues o accs)⟩]
          = doValues o accs) := by
  constructor
  · intro ms h
    show (match tryOneof opts args pos with
          | .ok g => SRes.claimed g
          | .error errs => .fail (String.intercalate ", " errs)) = _
    rw [tryOneof_all_error args pos opts ms h]
  · intro pre o post ms pos2 accs hopts hpre hok
    subst hopts
    refine ⟨?_, rfl⟩
    show (match tryOneof (pre ++ o :: post) args pos with
          | .ok g => SRes.claimed g
          | .error errs => .fail (String.intercalate ", " errs)) = _
    rw [tryOneof_first_success args pos pre o post ms pos2 accs hpre hok]

/-- Witness for C6: first alternative fails, second matches `["lit"]`; the
composed handler claims the slice and extracts the second alternative's
result; and with both alternatives failing the messages are comma-joined. -/
theorem oneof_first_match_spec_witness :
    (oneof [[expect "A" "k1"], [expect "lit" "k2"]] "alt").scan ["lit"] 0 []
      = .claimed ⟨["lit"], some (.val (.obj [("k2", .str "lit")]))⟩
    ∧ (oneof [[expect "A" "k1"], [expect "B" "k2"]] "alt").scan ["lit"] 0 []
      = .fail "expected \"A\", expected \"B\"" := by
  constructor
  · have h := ((oneof_first_match_spec [[expect "A" "k1"], [expect "lit" "k2"]] "alt"
      ["lit"] 0 []).2 [[expect "A" "k1"]] [expect "lit" "k2"] [] ["expected \"A\""]
      1 [[⟨["lit"], none⟩]] rfl rfl rfl).1
    exact h.trans (by rfl)
  · have h := (oneof_first_match_spec [[expect "A" "k1"], [expect "B" "k2"]] "alt"
      ["lit"] 0 []).1 ["expected \"A\"", "expected \"B\""] rfl
    exact h.trans (by rfl)

/-- When every group's base extraction yields a value, the `repeat` loop
collects the present ones in order (after the already-collected prefix). -/
lemma repeatValues_all_val (hval : List Claimed → VRes) :
    ∀ (groups : List Claimed) (acc : List Value),
    (∀ g ∈ groups, ∃ v, hval [g] = .val v) →
    repeatValues hval groups acc = .val (.list (acc ++ groups.filterMap (fun g =>
      match hval [g] with
      | .val .undef => none
      | .val v => some v
      | .fail _ => none
      | .thrown => none))) := by
  intro groups
  induction groups with
  | nil => intro acc _; simp [repeatValues]
  | cons g rest ih =>
    intro acc hall
    obtain ⟨v, hv⟩ := hall g (by simp)
    unfold repeatValues
    have hrest : ∀ g2 ∈ rest, ∃ v, hval [g2] = .val v :=
      fun g2 hm => hall g2 (by simp [hm])
    cases v with
    | undef =>
      simp only [hv]
      rw [ih acc hrest]
      simp [List.filterMap_cons, hv]
    | str s =>
      simp only [hv]
      rw [ih (acc ++ [Value.str s]) hrest]
      simp [List.filterMap_cons, hv]
    | bool b =>
      simp only [hv]
      rw [ih (acc ++ [Value.bool b]) hrest]
      simp [List.filterMap_cons, hv]
    | list vs =>
      simp only [hv]
      rw [ih (acc ++ [Value.list vs]) hrest]
      simp [List.filterMap_cons, hv]
    | obj fs =>
      simp only [hv]
      rw [ih (acc ++ [Value.obj fs]) hrest]
      simp [List.filterMap_cons, hv]

/-- The `repeat` loop short-circuits on the first group whose base extraction
fails, discarding everything collected so far. -/
lemma repeatValues_first_fail (hval : List Claimed → VRes) :
    ∀ (pre : List Claimed) (g : Claimed) (post : List Claimed) (acc : List Value) (m : String),
    (∀ g2 ∈ pre, ∃ v, hval [g2] = .val v) →
    hval [g] = .fail m →
    repeatValues hval (pre ++ g :: post) acc = .fail m := by
  intro pre
  induction pre with
  | nil =>
    intro g post acc m _ hg
    rw [List.nil_append]
    unfold repeatValues
    rw [hg]
  | cons p rest ih =>
    intro g post acc m hpre hg
    obtain ⟨v, hv⟩ := hpre p (by simp)
    rw [List.cons_append]
    unfold repeatValues
    rw [hv]
    have hrest : ∀ g2 ∈ rest, ∃ v, hval [g2] = .val v :=
      fun g2 hm => hpre g2 (by simp [hm])
    cases v with
    | undef => exact ih g post acc m hrest hg
    | str s => exact ih g post (acc ++ [Value.str s]) m hrest hg
    | bool b => exact ih g post (acc ++ [Value.bool b]) m hrest hg
    | list vs => exact ih g post (acc ++ [Value.list vs]) m hrest hg
    | obj fs => exact ih g post (acc ++ [Value.obj fs]) m hrest hg

/-- C8: extraction through `repeat()` applies the base single-group value
function independently to each claimed group in claimed order, collects every
successfully-extracted present result into an ordered sequence, and
short-circuits on the first group whose extraction is a `MatchError`,
returning that failure with no partial sequence. -/
theorem repeated_value_spec (h : Handler) (groups : List Claimed) :
    ((∀ g ∈ groups, ∃ v, h.value [g] = .val v) →
      (h.repeated).value groups = .val (.list (groups.filterMap (fun g =>
        match h.value [g] with
        | .val .undef => none
        | .val v => some v
        | .fail _ => none
        | .thrown => none))))
    ∧ (∀ pre g post m, groups = pre ++ g :: post →
        (∀ g2 ∈ pre, ∃ v, h.value [g2] = .val v) →
        h.value [g] = .fail m →
        (h.repeated).value groups = .fail m) := by
  constructor
  · intro hall
    show repeatValues h.value groups [] = _
    simpa using repeatValues_all_val h.value groups [] hall
  · intro pre g post m hgroups hpre hg
    subst hgroups
    show repeatValues h.value (pre ++ g :: post) [] = _
    exact repeatValues_first_fail h.value pre g post [] m hpre hg

/-- Witness for C8 on `repeat(required(param("--out")))`: two value-carrying
occurrences collect in order; a value-less second occurrence fails the whole
repeated extraction with no partial sequence. -/
theorem repeated_value_spec_witness :
    (Handler.repeated ((param ["--out"] "o").required)).value
        [⟨["--out", "f"], none⟩, ⟨["--out", "g"], none⟩] = .val (.list [.str "f", .str "g"])
    ∧ (Handler.repeated ((param ["--out"] "o").required)).value
        [⟨["--out", "f"], none⟩, ⟨["--out"], none⟩] = .fail "\"--out\" must be specified" := by
  constructor
  · have h := (repeated_value_spec ((param ["--out"] "o").required)
      [⟨["--out", "f"], none⟩, ⟨["--out", "g"], none⟩]).1 (by
        intro g hm
        rcases List.mem_cons.mp hm with h1 | hm2
        · exact ⟨.str "f", by subst h1; rfl⟩
        · rcases List.mem_cons.mp hm2 with h2 | hm3
          · exact ⟨.str "g", by subst h2; rfl⟩
          · cases hm3)
    exact h.trans (by rfl)
  · exact (repeated_value_spec ((param ["--out"] "o").required)
      [⟨["--out", "f"], none⟩, ⟨["--out"], none⟩]).2
      [⟨["--out", "f"], none⟩] ⟨["--out"], none⟩ [] "\"--out\" must be specified" rfl
      (by
        intro g hm
        rcases List.mem_cons.mp hm with h1 | hm2
        · exact ⟨.str "f", by subst h1; rfl⟩
        · cases hm2)
      rfl

/-- C1 (counterexample to the claim as stated): with the two `arg` handlers
declared before the flag handler, the interleaving `["-v","x","y"]` of the
positional tokens with the flag's activator token makes `arg("a")` claim the
activator token `"-v"` itself, so `a` binds `"-v"` instead of `"x"` and the
parse ends in the unrecognized-argument path on the leftover `"y"`. -/
theorem positional_order_cex :
    doScan [arg "a", arg "b", flag ["-v"] "v"] ["-v", "x", "y"] 0
      = .ok (2, [[⟨["-v"], none⟩], [⟨["x"], none⟩], []])
    ∧ (arg "a").value [⟨["-v"], none⟩] = .val (.str "-v")
    ∧ parse [arg "a", arg "b", flag ["-v"] "v"] ["-v", "x", "y"] = .unrecognized "y" :=
  ⟨rfl, rfl, rfl⟩

/-- C7 (counterexample to the claim as stated): a nested `oneof` propagates a
sub-parser's own `"nothing was consumed"` failure out of the scan, so `doScan`
returns that `MatchFailure` in a run whose first token was in fact claimed
(the position had advanced past the starting position). -/
theorem doScan_stall_message_cex :
    doScan [flag ["-v"] "v", oneof [[flag ["-x"] "x"]] "o"] ["-v", "zzz"] 0
      = .error "nothing was consumed"
    ∧ (flag ["-v"] "v").scan ["-v", "zzz"] 0 [] = .claimed ⟨["-v"], none⟩ :=
  ⟨rfl, rfl⟩

/-- Witness for the conditional clauses of the C5 theorem: a token without a
leading dash and a `--` token without `=` both pass through unchanged. -/
theorem expand_flags_spec_witness :
    expandToken "pos" = ["pos"] ∧ expandToken "--flag" = ["--flag"] :=
  ⟨expand_flags_spec.2.2.2.2.2.1 "pos" (by decide),
   expand_flags_spec.2.2.2.2.2.2 "--flag" ['f', 'l', 'a', 'g'] (by decide) (by decide)⟩

/-! ### Scan-loop structure lemmas -/

/-- A pass that claims names the handler, its accumulator and the group. -/
lemma doScanPass_claimedAt_spec (args : List String) (pos : Nat) :
    ∀ (hs : List Handler) (accs : List (List Claimed)) (i : Nat) (g : Claimed),
    doScanPass hs accs args pos = .claimedAt i g →
    ∃ h acc, hs[i]? = some h ∧ accs[i]? = some acc ∧ h.scan args pos acc = .claimed g := by
  intro hs
  induction hs with
  | nil => intro accs i g hp; simp [doScanPass] at hp
  | cons hd rest ih =>
    intro accs i g hp
    cases accs with
    | nil => simp [doScanPass] at hp
    | cons acc arest =>
      unfold doScanPass at hp
      cases hscan : hd.scan args pos acc with
      | claimed g2 =>
        simp only [hscan] at hp
        cases hp
        exact ⟨hd, acc, by simp, by simp, hscan⟩
      | fail m =>
        simp only [hscan] at hp
        cases hp
      | decline =>
        simp only [hscan] at hp
        cases hrest : doScanPass rest arest args pos with
        | claimedAt j g2 =>
          simp only [hrest] at hp
          cases hp
          obtain ⟨h, acc2, hj, hacc2, hsc⟩ := ih arest j _ hrest
          exact ⟨h, acc2, by simpa using hj, by simpa using hacc2, hsc⟩
        | nothing =>
          simp only [hrest] at hp
          cases hp
        | fail m =>
          simp only [hrest] at hp
          cases hp

/-- A failing pass names a handler whose scan failed. -/
lemma doScanPass_fail_spec (args : List String) (pos : Nat) :
    ∀ (hs : List Handler) (accs : List (List Claimed)) (m : String),
    doScanPass hs accs args pos = .fail m →
    ∃ h acc, h ∈ hs ∧ h.scan args pos acc = .fail m := by
  intro hs
  induction hs with
  | nil => intro accs m hp; simp [doScanPass] at hp
  | cons hd rest ih =>
    intro accs m hp
    cases accs with
    | nil => simp [doScanPass] at hp
    | cons acc arest =>
      unfold doScanPass at hp
      cases hscan : hd.scan args pos acc with
      | claimed g2 =>
        simp only [hscan] at hp
        cases hp
      | fail m2 =>
        simp only [hscan] at hp
        cases hp
        exact ⟨hd, acc, by simp, hscan⟩
      | decline =>
        simp only [hscan] at hp
        cases hrest : doScanPass rest arest args pos with
        | claimedAt j g2 =>
          simp only [hrest] at hp
          cases hp
        | nothing =>
          simp only [hrest] at hp
          cases hp
        | fail m2 =>
          simp only [hrest] at hp
          cases hp
          obtain ⟨h, acc2, hmem, hsc⟩ := ih arest _ hrest
          exact ⟨h, acc2, by simp [hmem], hsc⟩

/-- On the all-empty accumulators of a first pass, claiming nothing is
exactly every handler declining. -/
lemma doScanPass_map_nil_nothing_iff (hs : List Handler) (args : List String) (pos : Nat) :
    doScanPass hs (hs.map fun _ => []) args pos = .nothing
      ↔ ∀ hd ∈ hs, hd.scan args pos [] = .decline := by
  constructor
  · intro hp
    induction hs with
    | nil => intro hd hm; cases hm
    | cons hd rest ih =>
      simp only [List.map_cons] at hp
      unfold doScanPass at hp
      intro hd2 hm
      cases hscan : hd.scan args pos [] with
      | claimed g2 =>
        simp only [hscan] at hp
        cases hp
      | fail m2 =>
        simp only [hscan] at hp
        cases hp
      | decline =>
        simp only [hscan] at hp
        rcases List.mem_cons.mp hm with h1 | hm2
        · subst h1; exact hscan
        · cases hrest : doScanPass rest (rest.map fun _ => []) args pos with
          | claimedAt j g2 =>
            simp only [hrest] at hp
            cases hp
          | fail m2 =>
            simp only [hrest] at hp
            cases hp
          | nothing => exact ih hrest hd2 hm2
  · exact doScanPass_map_nil_nothing hs args pos

/-- `appendAcc` preserves the shape of the accumulator table. -/
lemma appendAcc_length (accs : List (List Claimed)) (i : Nat) (g : Claimed) :
    (appendAcc accs i g).length = accs.length := by
  induction accs generalizing i with
  | nil => rfl
  | cons acc rest ih => cases i with
    | zero => rfl
    | succ n => simp [appendAcc, ih]

/-- `appendAcc` pushes the group onto the addressed accumulator. -/
lemma appendAcc_getElem?_eq (accs : List (List Claimed)) (i : Nat) (g : Claimed) :
    (appendAcc accs i g)[i]? = (accs[i]?).map (· ++ [g]) := by
  induction accs generalizing i with
  | nil => cases i <;> simp [appendAcc]
  | cons acc rest ih => cases i with
    | zero => simp [appendAcc]
    | succ n => simpa [appendAcc] using ih n

/-- `appendAcc` leaves every other accumulator unchanged. -/
lemma appendAcc_getElem?_ne (accs : List (List Claimed)) (i j : Nat) (g : Claimed)
    (h : j ≠ i) : (appendAcc accs i g)[j]? = accs[j]? := by
  induction accs generalizing i j with
  | nil => cases i <;> simp [appendAcc]
  | cons acc rest ih =>
    cases i with
    | zero =>
      cases j with
      | zero => exact absurd rfl h
      | succ m => simp [appendAcc]
    | succ n =>
      cases j with
      | zero => simp [appendAcc]
      | succ m => simpa [appendAcc] using ih n m (fun he => h (by rw [he]))

/-- The scan loop never moves the position backwards. -/
lemma doScanLoop_le (hs : List Handler) (args : List String) :
    ∀ (fuel pos : Nat) (accs : List (List Claimed)) (pos2 : Nat) (accs2 : List (List Claimed)),
    doScanLoop hs args fuel pos accs = .ok (pos2, accs2) → pos ≤ pos2 := by
  intro fuel
  induction fuel with
  | zero => intro pos accs pos2 accs2 h; simp [doScanLoop] at h
  | succ f ih =>
    intro pos accs pos2 accs2 h
    unfold doScanLoop at h
    by_cases hlt : pos < args.length
    · rw [if_pos hlt] at h
      cases hp : doScanPass hs accs args pos with
      | fail m =>
        simp only [hp] at h
        cases h
      | nothing =>
        simp only [hp, Except.ok.injEq, Prod.mk.injEq] at h
        omega
      | claimedAt i g =>
        simp only [hp] at h
        have := ih (pos + g.toks.length) (appendAcc accs i g) pos2 accs2 h
        omega
    · rw [if_neg hlt] at h
      simp only [Except.ok.injEq, Prod.mk.injEq] at h
      omega

/-- A handler is well-behaved on `args` when every group it claims from an
in-bounds position is the nonempty contiguous slice of `args` starting there —
true of every handler the library constructs (lemmas below). -/
def GoodScan (h : Handler) (args : List String) : Prop :=
  ∀ pos acc g, pos < args.length → h.scan args pos acc = .claimed g →
    g.toks ≠ [] ∧ g.toks = (args.drop pos).take g.toks.length

/-- A claimed slice never extends past the end of the token stream. -/
lemma goodScan_length_le {h : Handler} {args : List String} (hg : GoodScan h args)
    {pos : Nat} {acc : List Claimed} {g : Claimed} (hp : pos < args.length)
    (hs : h.scan args pos acc = .claimed g) : g.toks.length ≤ args.length - pos := by
  obtain ⟨_, hslice⟩ := hg pos acc g hp hs
  have := congrArg List.length hslice
  simp only [List.length_take, List.length_drop] at this
  omega

/-- A claim trace: the `(handler index, claimed group)` pairs of one scan run
in the order the loop produced them.  `Tiling args start stop tr` says the
groups are the consecutive, pairwise-disjoint, nonempty contiguous slices of
`args` covering exactly `[start, stop)`. -/
def Tiling (args : List String) : Nat → Nat → List (Nat × Claimed) → Prop
  | start, stop, [] => stop = start
  | start, stop, p :: rest =>
      p.2.toks ≠ [] ∧ p.2.toks = (args.drop start).take p.2.toks.length
      ∧ Tiling args (start + p.2.toks.length) stop rest

/-- The groups a trace assigns to handler `i`, in claimed order. -/
def claimsOf (tr : List (Nat × Claimed)) (i : Nat) : List Claimed :=
  (tr.filter (fun p => p.1 == i)).map Prod.snd

lemma claimsOf_cons_self (i : Nat) (g : Claimed) (tr : List (Nat × Claimed)) :
    claimsOf ((i, g) :: tr) i = g :: claimsOf tr i := by
  simp [claimsOf]

lemma claimsOf_cons_ne (i j : Nat) (g : Claimed) (tr : List (Nat × Claimed))
    (h : j ≠ i) : claimsOf ((i, g) :: tr) j = claimsOf tr j := by
  simp [claimsOf, List.filter_cons, Ne.symm h]

/-- Position monotonicity, the in-bounds final position, the preserved
accumulator-table shape, and the claim trace of one run of the scan loop over
well-behaved handlers. -/
lemma doScanLoop_invariants (hs : List Handler) (args : List String)
    (hgood : ∀ h ∈ hs, GoodScan h args) :
    ∀ (fuel pos : Nat) (accs : List (List Claimed)) (pos2 : Nat) (accs2 : List (List Claimed)),
    pos ≤ args.length →
    doScanLoop hs args fuel pos accs = .ok (pos2, accs2) →
    pos ≤ pos2 ∧ pos2 ≤ args.length ∧ accs2.length = accs.length ∧
      ∃ tr, Tiling args pos pos2 tr ∧
        ∀ i, accs2[i]? = (accs[i]?).map (· ++ claimsOf tr i) := by
  intro fuel
  induction fuel with
  | zero => intro pos accs pos2 accs2 _ h; simp [doScanLoop] at h
  | succ f ih =>
    intro pos accs pos2 accs2 hple h
    unfold doScanLoop at h
    by_cases hlt : pos < args.length
    · rw [if_pos hlt] at h
      cases hp : doScanPass hs accs args pos with
      | fail m =>
        simp only [hp] at h
        cases h
      | nothing =>
        simp only [hp, Except.ok.injEq, Prod.mk.injEq] at h
        obtain ⟨h1, h2⟩ := h
        subst h1; subst h2
        refine ⟨le_refl _, hple, rfl, [], rfl, ?_⟩
        intro i
        cases accs[i]? <;> simp [claimsOf]
      | claimedAt i g =>
        simp only [hp] at h
        obtain ⟨hd, acc, hi, hacc, hsc⟩ := doScanPass_claimedAt_spec args pos hs accs i g hp
        have hmem : hd ∈ hs := List.getElem?_mem hi
        obtain ⟨hne, hslice⟩ := hgood hd hmem pos acc g hlt hsc
        have hlenle : g.toks.length ≤ args.length - pos :=
          goodScan_length_le (hgood hd hmem) hlt hsc
        have hrec := ih (pos + g.toks.length) (appendAcc accs i g) pos2 accs2 (by omega) h
        obtain ⟨hle1, hle2, hlen, tr, htile, hget⟩ := hrec
        refine ⟨by omega, hle2, by rw [hlen, appendAcc_length], (i, g) :: tr,
          ⟨hne, hslice, htile⟩, ?_⟩
        intro j
        by_cases hj : j = i
        · subst hj
          rw [hget j, appendAcc_getElem?_eq, claimsOf_cons_self]
          cases accs[j]? with
          | none => rfl
          | some acc0 => simp
        · rw [hget j, appendAcc_getElem?_ne accs i j g hj, claimsOf_cons_ne i j g tr hj]
    · rw [if_neg hlt] at h
      simp only [Except.ok.injEq, Prod.mk.injEq] at h
      obtain ⟨h1, h2⟩ := h
      subst h1; subst h2
      refine ⟨le_refl _, hple, rfl, [], rfl, ?_⟩
      intro i
      cases accs[i]? <;> simp [claimsOf]

/-- A successful `doScan` started strictly inside the token stream makes
strict progress: the structural stall guard filters out the no-progress run. -/
lemma doScan_pos_lt (o : List Handler) (args : List String) (pos pos2 : Nat)
    (accs2 : List (List Claimed)) (hp : pos < args.length)
    (h : doScan o args pos = .ok (pos2, accs2)) : pos < pos2 := by
  unfold doScan at h
  cases hloop : doScanLoop o args (args.length + 1) pos (o.map fun _ => []) with
  | error m =>
    rw [hloop] at h
    cases h
  | ok p =>
    obtain ⟨p2, a2⟩ := p
    rw [hloop] at h
    dsimp only at h
    by_cases hstall : p2 = pos ∧ p2 < args.length
    · rw [if_pos hstall] at h
      cases h
    · rw [if_neg hstall] at h
      simp only [Except.ok.injEq, Prod.mk.injEq] at h
      obtain ⟨h1, _⟩ := h
      have hle := doScanLoop_le o args _ pos _ p2 a2 hloop
      rcases Nat.lt_or_ge pos p2 with hlt | hge
      · omega
      · have heq : p2 = pos := le_antisymm hge hle
        exact absurd ⟨heq, heq ▸ hp⟩ hstall

/-- A successful `tryOneof` names the matched alternative, its recorded run,
and the claimed slice. -/
lemma tryOneof_ok_spec (args : List String) (pos : Nat) :
    ∀ (opts : List (List Handler)) (g : Claimed),
    tryOneof opts args pos = .ok g →
    ∃ o pos2 accs, o ∈ opts ∧ doScan o args pos = .ok (pos2, accs) ∧
      g = ⟨(args.drop pos).take (pos2 - pos), some (doValues o accs)⟩ := by
  intro opts
  induction opts with
  | nil => intro g h; simp [tryOneof] at h
  | cons o rest ih =>
    intro g h
    unfold tryOneof at h
    cases hscan : doScan o args pos with
    | ok p =>
      obtain ⟨p2, a2⟩ := p
      simp only [hscan] at h
      cases h
      exact ⟨o, p2, a2, by simp, hscan, rfl⟩
    | error m =>
      simp only [hscan] at h
      cases htry : tryOneof rest args pos with
      | ok g2 =>
        simp only [htry] at h
        cases h
        obtain ⟨o2, p2, a2, hmem, hsc, hg⟩ := ih _ htry
        exact ⟨o2, p2, a2, by simp [hmem], hsc, hg⟩
      | error errs =>
        simp only [htry] at h
        cases h

/-! ### GoodScan holds for every handler the library constructs -/

lemma flag_goodScan (activators : List String) (key : String) (args : List String) :
    GoodScan (flag activators key) args := by
  intro pos acc g hp hscan
  unfold flag at hscan
  dsimp only at hscan
  cases hget : args[pos]? with
  | none => rw [hget] at hscan; cases hscan
  | some a =>
    rw [hget] at hscan
    dsimp only at hscan
    by_cases hmem : a ∈ effectiveActivators activators key
    · rw [if_pos hmem] at hscan
      cases hscan
      exact ⟨by simp, by rw [drop_cons_of_getElem? hget]; rfl⟩
    · rw [if_neg hmem] at hscan
      cases hscan

lemma param_goodScan (activators : List String) (key : String) (args : List String) :
    GoodScan (param activators key) args := by
  intro pos acc g hp hscan
  unfold param at hscan
  dsimp only at hscan
  cases hget : args[pos]? with
  | none => rw [hget] at hscan; cases hscan
  | some a =>
    rw [hget] at hscan
    dsimp only at hscan
    by_cases hmem : a ∈ effectiveActivators activators key
    · rw [if_pos hmem] at hscan
      cases hscan
      have hdrop := drop_cons_of_getElem? hget
      constructor
      · cases hnext : args[pos + 1]? with
        | none => simp [hnext, hdrop, show pos + 1 - pos = 1 by omega]
        | some next =>
          by_cases hdash : next.data.head? = some '-' <;>
            simp [hnext, hdash, hdrop, String.toList, show pos + 1 - pos = 1 by omega,
              show pos + 2 - pos = 2 by omega]
      · dsimp only
        rw [List.take_eq_take]
        simp [Nat.min_assoc]
    · rw [if_neg hmem] at hscan
      cases hscan

lemma arg_goodScan (key : String) (args : List String) :
    GoodScan (arg key) args := by
  intro pos acc g hp hscan
  unfold arg at hscan
  dsimp only at hscan
  by_cases hc : acc.length > 0 ∨ args.length ≤ pos
  · rw [if_pos hc] at hscan; cases hscan
  · rw [if_neg hc] at hscan
    cases hscan
    have hget : args[pos]? = some (args.getD pos "") := by
      rw [List.getD_eq_getElem?_getD]
      rw [List.getElem?_eq_getElem hp]
      rfl
    exact ⟨by simp, by rw [drop_cons_of_getElem? hget]; rfl⟩

lemma expect_goodScan (lit key : String) (args : List String) :
    GoodScan (expect lit key) args := by
  intro pos acc g hp hscan
  unfold expect at hscan
  dsimp only at hscan
  by_cases hc : acc.length > 0
  · rw [if_pos hc] at hscan; cases hscan
  · rw [if_neg hc] at hscan
    cases hget : args[pos]? with
    | none => rw [hget] at hscan; cases hscan
    | some a =>
      rw [hget] at hscan
      dsimp only at hscan
      by_cases hlit : a = lit
      · rw [if_pos hlit] at hscan
        cases hscan
        exact ⟨by simp, by rw [drop_cons_of_getElem? hget]; rfl⟩
      · rw [if_neg hlit] at hscan
        cases hscan

lemma oneof_goodScan (opts : List (List Handler)) (key : String) (args : List String) :
    GoodScan (oneof opts key) args := by
  intro pos acc g hp hscan
  unfold oneof at hscan
  dsimp only at hscan
  cases htry : tryOneof opts args pos with
  | error errs => rw [htry] at hscan; cases hscan
  | ok g2 =>
    rw [htry] at hscan
    cases hscan
    obtain ⟨o, pos2, accs, _, hsc, hg⟩ := tryOneof_ok_spec args pos opts _ htry
    subst hg
    have hlt := doScan_pos_lt o args pos pos2 accs hp hsc
    have hdropne : args.drop pos ≠ [] := by
      rw [ne_eq, List.drop_eq_nil_iff]
      omega
    constructor
    · dsimp only
      rw [ne_eq, List.take_eq_nil_iff]
      push_neg
      exact ⟨by omega, hdropne⟩
    · dsimp only
      rw [List.take_eq_take]
      simp [Nat.min_assoc]

lemma required_goodScan (h : Handler) (args : List String)
    (hg : GoodScan h args) : GoodScan (h.required) args := hg

lemma withDefault_goodScan (h : Handler) (v : Value) (args : List String)
    (hg : GoodScan h args) : GoodScan (h.withDefault v) args := hg

lemma mapValue_goodScan (h : Handler) (f : Value → Value) (args : List String)
    (hg : GoodScan h args) : GoodScan (h.mapValue f) args := hg

lemma repeated_goodScan (h : Handler) (args : List String)
    (hg : GoodScan h args) : GoodScan (h.repeated) args := by
  intro pos acc g hp hscan
  exact hg pos [] g hp hscan

/-- `flag`'s scan never fails (it only claims or declines). -/
lemma flag_scan_ne_fail (activators : List String) (key : String) :
    ∀ (args : List String) (p : Nat) (acc : List Claimed) (m : String),
    (flag activators key).scan args p acc ≠ .fail m := by
  intro args p acc m hscan
  unfold flag at hscan
  dsimp only at hscan
  cases hget : args[p]? with
  | none => rw [hget] at hscan; cases hscan
  | some a =>
    rw [hget] at hscan
    dsimp only at hscan
    by_cases hmem : a ∈ effectiveActivators activators key
    · rw [if_pos hmem] at hscan; cases hscan
    · rw [if_neg hmem] at hscan; cases hscan

/-- Under no-failure, well-behaved handlers, the scan loop with its standard
fuel always comes back successfully (the fuel-exhaustion branch is dead). -/
lemma doScanLoop_no_failure_ok (hs : List Handler) (args : List String)
    (hgood : ∀ h ∈ hs, GoodScan h args)
    (hnf : ∀ h ∈ hs, ∀ p acc m, h.scan args p acc ≠ .fail m) :
    ∀ (fuel pos : Nat) (accs : List (List Claimed)),
    args.length < fuel + pos → 1 ≤ fuel →
    ∃ pos2 accs2, doScanLoop hs args fuel pos accs = .ok (pos2, accs2) := by
  intro fuel
  induction fuel with
  | zero => intro pos accs _ h2; omega
  | succ f ih =>
    intro pos accs hlen _
    unfold doScanLoop
    by_cases hp : pos < args.length
    · rw [if_pos hp]
      cases hpass : doScanPass hs accs args pos with
      | fail m =>
        obtain ⟨h, acc, hmem, hsc⟩ := doScanPass_fail_spec args pos hs accs m hpass
        exact absurd hsc (hnf h hmem _ _ _)
      | nothing => exact ⟨pos, accs, by simp only [hpass]⟩
      | claimedAt i g =>
        obtain ⟨h, acc, hi, hacc, hsc⟩ := doScanPass_claimedAt_spec args pos hs accs i g hpass
        have hmem : h ∈ hs := List.getElem?_mem hi
        obtain ⟨hne, _⟩ := hgood h hmem pos acc g hp hsc
        have hlen1 : 1 ≤ g.toks.length := by
          cases hg : g.toks with
          | nil => exact absurd hg hne
          | cons t ts => simp
        obtain ⟨pos2, accs2, hrec⟩ := ih (pos + g.toks.length) (appendAcc accs i g)
          (by omega) (by omega)
        exact ⟨pos2, accs2, by simp only [hpass]; exact hrec⟩
    · rw [if_neg hp]
      exact ⟨pos, accs, rfl⟩

/-- C7 (amended): provided no handler's scan itself returns a failure — a
nested `oneof` can otherwise propagate a sub-parser's identical
`"nothing was consumed"` message after progress, see the counterexample —
`doScan` returns the structural `"nothing was consumed"` failure exactly when
tokens remain at the starting position and the first pass claims nothing
(every handler declines with its still-empty accumulator); and whenever some
handler does claim at the starting position, the scan instead returns
successfully, leaving any remaining tokens unconsumed within bounds. -/
theorem doScan_stall_iff (hs : List Handler) (args : List String) (init : Nat)
    (hgood : ∀ h ∈ hs, GoodScan h args)
    (hnf : ∀ h ∈ hs, ∀ p acc m, h.scan args p acc ≠ .fail m) :
    (doScan hs args init = .error "nothing was consumed"
      ↔ init < args.length ∧ ∀ h ∈ hs, h.scan args init [] = .decline)
    ∧ (init < args.length → ¬ (∀ h ∈ hs, h.scan args init [] = .decline) →
        ∃ pos2 accs2, doScan hs args init = .ok (pos2, accs2)
          ∧ init < pos2 ∧ pos2 ≤ args.length) := by
  obtain ⟨pos2, accs2, hloop⟩ := doScanLoop_no_failure_ok hs args hgood hnf
    (args.length + 1) init (hs.map fun _ => []) (by omega) (by omega)
  have hle := doScanLoop_le hs args _ init _ pos2 accs2 hloop
  have hinv := doScanLoop_invariants hs args hgood (args.length + 1) init (hs.map fun _ => []) pos2 accs2
  constructor
  · constructor
    · intro hrun
      unfold doScan at hrun
      rw [hloop] at hrun
      dsimp only at hrun
      by_cases hstall : pos2 = init ∧ pos2 < args.length
      · obtain ⟨heq, hlt⟩ := hstall
        subst heq
        refine ⟨hlt, ?_⟩
        rw [← doScanPass_map_nil_nothing_iff hs args pos2]
        unfold doScanLoop at hloop
        rw [if_pos hlt] at hloop
        cases hpass : doScanPass hs (hs.map fun _ => []) args pos2 with
        | fail m =>
          obtain ⟨h, acc, hmem, hsc⟩ := doScanPass_fail_spec args pos2 hs _ m hpass
          exact absurd hsc (hnf h hmem _ _ _)
        | nothing => rfl
        | claimedAt i g =>
          simp only [hpass] at hloop
          obtain ⟨h, acc, hi, hacc, hsc⟩ := doScanPass_claimedAt_spec args pos2 hs _ i g hpass
          have hmem : h ∈ hs := List.getElem?_mem hi
          obtain ⟨hne, _⟩ := hgood h hmem pos2 acc g hlt hsc
          have hlen1 : 1 ≤ g.toks.length := by
            cases hg : g.toks with
            | nil => exact absurd hg hne
            | cons t ts => simp
          have := doScanLoop_le hs args _ (pos2 + g.toks.length) _ pos2 accs2 hloop
          omega
      · rw [if_neg hstall] at hrun
        cases hrun
    · rintro ⟨hlt, hdecl⟩
      unfold doScan
      have hpass := doScanPass_map_nil_nothing hs args init hdecl
      have hloop1 : doScanLoop hs args (args.length + 1) init (hs.map fun _ => [])
          = .ok (init, hs.map fun _ => []) := by
        unfold doScanLoop
        rw [if_pos hlt, hpass]
      rw [hloop1]
      dsimp only
      rw [if_pos ⟨rfl, hlt⟩]
  · intro hlt hnotall
    refine ⟨pos2, accs2, ?_, ?_, ?_⟩
    · unfold doScan
      rw [hloop]
      dsimp only
      by_cases hstall : pos2 = init ∧ pos2 < args.length
      · obtain ⟨heq, _⟩ := hstall
        subst heq
        exfalso
        unfold doScanLoop at hloop
        rw [if_pos hlt] at hloop
        cases hpass : doScanPass hs (hs.map fun _ => []) args pos2 with
        | fail m =>
          obtain ⟨h, acc, hmem, hsc⟩ := doScanPass_fail_spec args pos2 hs _ m hpass
          exact absurd hsc (hnf h hmem _ _ _)
        | nothing =>
          exact hnotall ((doScanPass_map_nil_nothing_iff hs args pos2).mp hpass)
        | claimedAt i g =>
          simp only [hpass] at hloop
          obtain ⟨h, acc, hi, hacc, hsc⟩ := doScanPass_claimedAt_spec args pos2 hs _ i g hpass
          have hmem : h ∈ hs := List.getElem?_mem hi
          obtain ⟨hne, _⟩ := hgood h hmem pos2 acc g hlt hsc
          have hlen1 : 1 ≤ g.toks.length := by
            cases hg : g.toks with
            | nil => exact absurd hg hne
            | cons t ts => simp
          have := doScanLoop_le hs args _ (pos2 + g.toks.length) _ pos2 accs2 hloop
          omega
      · rw [if_neg hstall]
    · rcases Nat.lt_or_ge init pos2 with h | hge
      · exact h
      · exfalso
        have heq : pos2 = init := le_antisymm hge hle
        subst heq
        unfold doScanLoop at hloop
        rw [if_pos hlt] at hloop
        cases hpass : doScanPass hs (hs.map fun _ => []) args pos2 with
        | fail m =>
          obtain ⟨h, acc, hmem, hsc⟩ := doScanPass_fail_spec args pos2 hs _ m hpass
          exact absurd hsc (hnf h hmem _ _ _)
        | nothing =>
          exact hnotall ((doScanPass_map_nil_nothing_iff hs args pos2).mp hpass)
        | claimedAt i g =>
          simp only [hpass] at hloop
          obtain ⟨h, acc, hi, hacc, hsc⟩ := doScanPass_claimedAt_spec args pos2 hs _ i g hpass
          have hmem : h ∈ hs := List.getElem?_mem hi
          obtain ⟨hne, _⟩ := hgood h hmem pos2 acc g hlt hsc
          have hlen1 : 1 ≤ g.toks.length := by
            cases hg : g.toks with
            | nil => exact absurd hg hne
            | cons t ts => simp
          have := doScanLoop_le hs args _ (pos2 + g.toks.length) _ pos2 accs2 hloop
          omega
    · exact (hinv (Nat.le_of_lt hlt) hloop).2.1

/-- Witness for the amended C7 theorem: a lone `flag("-v")` parser stalls on
`["zzz"]` with the structural failure, and succeeds with leftovers on
`["-v","zzz"]`. -/
theorem doScan_stall_iff_witness :
    doScan [flag ["-v"] "v"] ["zzz"] 0 = .error "nothing was consumed"
    ∧ ∃ pos2 accs2, doScan [flag ["-v"] "v"] ["-v", "zzz"] 0 = .ok (pos2, accs2)
        ∧ 0 < pos2 ∧ pos2 ≤ (["-v", "zzz"] : List String).length := by
  constructor
  · exact ((doScan_stall_iff [flag ["-v"] "v"] ["zzz"] 0
      (by intro h hm; rw [List.mem_singleton] at hm; subst hm; exact flag_goodScan _ _ _)
      (by intro h hm; rw [List.mem_singleton] at hm; subst hm; exact flag_scan_ne_fail _ _ _)).1).mpr
      ⟨by norm_num, by intro h hm; rw [List.mem_singleton] at hm; subst hm; rfl⟩
  · exact (doScan_stall_iff [flag ["-v"] "v"] ["-v", "zzz"] 0
      (by intro h hm; rw [List.mem_singleton] at hm; subst hm; exact flag_goodScan _ _ _)
      (by intro h hm; rw [List.mem_singleton] at hm; subst hm; exact flag_scan_ne_fail _ _ _)).2
      (by norm_num)
      (by
        intro hall
        have := hall (flag ["-v"] "v") (by simp)
        rw [show (flag ["-v"] "v").scan ["-v", "zzz"] 0 [] = .claimed ⟨["-v"], none⟩ from rfl]
          at this
        cases this)

/-- C9: in every scan run from an in-bounds start over well-behaved handlers
(every handler the library constructs is, by the `GoodScan` lemmas above),
the final position is at least the start and never exceeds the token-stream
length, and there is a claim trace tiling exactly the consumed interval with
nonempty, consecutive (hence disjoint and non-overlapping) contiguous slices
of the stream, such that each handler's final accumulator is precisely its
trace entries in claimed order. -/
theorem doScan_invariants (hs : List Handler) (args : List String) (init pos2 : Nat)
    (accs2 : List (List Claimed))
    (hgood : ∀ h ∈ hs, GoodScan h args)
    (hinit : init ≤ args.length)
    (hrun : doScan hs args init = .ok (pos2, accs2)) :
    init ≤ pos2 ∧ pos2 ≤ args.length ∧ accs2.length = hs.length ∧
      ∃ tr, Tiling args init pos2 tr ∧ ∀ i < hs.length, accs2[i]? = some (claimsOf tr i) := by
  unfold doScan at hrun
  cases hloop : doScanLoop hs args (args.length + 1) init (hs.map fun _ => []) with
  | error m =>
    rw [hloop] at hrun
    cases hrun
  | ok p =>
    obtain ⟨p2, a2⟩ := p
    rw [hloop] at hrun
    dsimp only at hrun
    by_cases hstall : p2 = init ∧ p2 < args.length
    · rw [if_pos hstall] at hrun
      cases hrun
    · rw [if_neg hstall] at hrun
      simp only [Except.ok.injEq, Prod.mk.injEq] at hrun
      obtain ⟨h1, h2⟩ := hrun
      subst h1; subst h2
      obtain ⟨hle1, hle2, hlen, tr, htile, hget⟩ :=
        doScanLoop_invariants hs args hgood (args.length + 1) init _ p2 a2 hinit hloop
      refine ⟨hle1, hle2, by simpa using hlen, tr, htile, ?_⟩
      intro i hi
      have := hget i
      rw [List.getElem?_map, List.getElem?_eq_getElem hi] at this
      simpa using this

/-- Witness for C9 at a one-flag parser consuming its single token. -/
theorem doScan_invariants_witness :
    0 ≤ 1 ∧ 1 ≤ (["-v"] : List String).length
      ∧ ([[(⟨["-v"], none⟩ : Claimed)]] : List (List Claimed)).length = [flag ["-v"] "v"].length
      ∧ ∃ tr, Tiling ["-v"] 0 1 tr
          ∧ ∀ i < [flag ["-v"] "v"].length,
              ([[(⟨["-v"], none⟩ : Claimed)]] : List (List Claimed))[i]? = some (claimsOf tr i) :=
  doScan_invariants [flag ["-v"] "v"] ["-v"] 0 1 [[⟨["-v"], none⟩]]
    (by intro h hm; rw [List.mem_singleton] at hm; subst hm; exact flag_goodScan _ _ _)
    (by norm_num) rfl

/-! ### Positional binding with flag handlers declared first (C1) -/

/-- The handlers of a list of `flag` declarations, in declaration order. -/
def flagHandlers (flags : List (List String × String)) : List Handler :=
  flags.map fun p => flag p.1 p.2

/-- A token activating at least one of the declared flags. -/
abbrev IsFlagToken (flags : List (List String × String)) (t : String) : Prop :=
  ∃ p ∈ flags, t ∈ effectiveActivators p.1 p.2

lemma appendAcc_append_left (l1 l2 : List (List Claimed)) (i : Nat) (g : Claimed)
    (h : i < l1.length) : appendAcc (l1 ++ l2) i g = appendAcc l1 i g ++ l2 := by
  induction l1 generalizing i with
  | nil => simp at h
  | cons a rest ih =>
    cases i with
    | zero => simp [appendAcc]
    | succ n =>
      simp only [List.cons_append, appendAcc, List.cons.injEq, true_and]
      exact ih n (by simpa using h)

lemma appendAcc_append_right (l1 l2 : List (List Claimed)) (k : Nat) (g : Claimed) :
    appendAcc (l1 ++ l2) (l1.length + k) g = l1 ++ appendAcc l2 k g := by
  induction l1 with
  | nil => simp
  | cons a rest ih =>
    have : (a :: rest).length + k = (rest.length + k) + 1 := by simp; omega
    rw [this]
    simp only [List.cons_append, appendAcc, List.cons.injEq, true_and]
    exact ih

/-- When the token at the position activates some declared flag, a pass over
`flagHandlers flags ++ tail` is claimed by the first matching flag: a flag's
scan ignores its accumulator and claims exactly the activator token. -/
lemma flagHandlers_cons (p : List String × String) (rest : List (List String × String)) :
    flagHandlers (p :: rest) = flag p.1 p.2 :: flagHandlers rest := rfl

lemma flag_scan_claims_of_mem (args : List String) (pos : Nat) (t : String)
    (hget : args[pos]? = some t) (activators : List String) (key : String)
    (acc : List Claimed) (hmem : t ∈ effectiveActivators activators key) :
    (flag activators key).scan args pos acc = .claimed ⟨[t], none⟩ := by
  unfold flag
  dsimp only
  rw [hget]
  dsimp only
  rw [if_pos hmem]

lemma flag_scan_declines_of_not_mem (args : List String) (pos : Nat) (t : String)
    (hget : args[pos]? = some t) (activators : List String) (key : String)
    (acc : List Claimed) (hmem : t ∉ effectiveActivators activators key) :
    (flag activators key).scan args pos acc = .decline := by
  unfold flag
  dsimp only
  rw [hget]
  dsimp only
  rw [if_neg hmem]

lemma flagHandlers_pass_claims (args : List String) (pos : Nat) (t : String)
    (hget : args[pos]? = some t) :
    ∀ (flags : List (List String × String)) (tailhs : List Handler)
      (faccs tailaccs : List (List Claimed)),
    faccs.length = flags.length →
    IsFlagToken flags t →
    ∃ i, i < flags.length ∧
      doScanPass (flagHandlers flags ++ tailhs) (faccs ++ tailaccs) args pos
        = .claimedAt i ⟨[t], none⟩ := by
  intro flags
  induction flags with
  | nil =>
    intro tailhs faccs tailaccs hlen hft
    obtain ⟨p, hp, _⟩ := hft
    cases hp
  | cons p rest ih =>
    intro tailhs faccs tailaccs hlen hft
    cases faccs with
    | nil => simp at hlen
    | cons acc faccs2 =>
      rw [flagHandlers_cons, List.cons_append, List.cons_append]
      by_cases hmem : t ∈ effectiveActivators p.1 p.2
      · refine ⟨0, by simp, ?_⟩
        rw [doScanPass]
        simp only [flag_scan_claims_of_mem args pos t hget p.1 p.2 acc hmem]
      · have hft2 : IsFlagToken rest t := by
          obtain ⟨q, hq, hqm⟩ := hft
          rcases List.mem_cons.mp hq with h1 | h2
          · subst h1; exact absurd hqm hmem
          · exact ⟨q, h2, hqm⟩
        obtain ⟨i, hi, hpass⟩ := ih tailhs faccs2 tailaccs (by simpa using hlen) hft2
        refine ⟨i + 1, by simpa using Nat.succ_lt_succ hi, ?_⟩
        rw [doScanPass]
        simp only [flag_scan_declines_of_not_mem args pos t hget p.1 p.2 acc hmem]
        simp only [hpass]

/-- When the token activates none of the declared flags, the flag prefix of a
pass declines throughout and the pass is decided by the tail handlers, with
indices shifted by the number of flags. -/
lemma flagHandlers_pass_declines (args : List String) (pos : Nat) (t : String)
    (hget : args[pos]? = some t) :
    ∀ (flags : List (List String × String)) (tailhs : List Handler)
      (faccs tailaccs : List (List Claimed)),
    faccs.length = flags.length →
    ¬ IsFlagToken flags t →
    doScanPass (flagHandlers flags ++ tailhs) (faccs ++ tailaccs) args pos
      = (match doScanPass tailhs tailaccs args pos with
         | .claimedAt i g => .claimedAt (flags.length + i) g
         | .nothing => .nothing
         | .fail m => .fail m) := by
  intro flags
  induction flags with
  | nil =>
    intro tailhs faccs tailaccs hlen _
    have : faccs = [] := List.length_eq_zero.mp (by simpa using hlen)
    subst this
    simp only [flagHandlers, List.map_nil, List.nil_append, List.length_nil, Nat.zero_add]
    cases doScanPass tailhs tailaccs args pos <;> rfl
  | cons p rest ih =>
    intro tailhs faccs tailaccs hlen hft
    cases faccs with
    | nil => simp at hlen
    | cons acc faccs2 =>
      have hmem : t ∉ effectiveActivators p.1 p.2 := by
        intro hm
        exact hft ⟨p, by simp, hm⟩
      have hft2 : ¬ IsFlagToken rest t := by
        intro hm
        obtain ⟨q, hq, hqm⟩ := hm
        exact hft ⟨q, by simp [hq], hqm⟩
      rw [flagHandlers_cons, List.cons_append, List.cons_append]
      rw [doScanPass]
      simp only [flag_scan_declines_of_not_mem args pos t hget p.1 p.2 acc hmem]
      rw [ih tailhs faccs2 tailaccs (by simpa using hlen) hft2]
      cases doScanPass tailhs tailaccs args pos with
      | claimedAt i g =>
        simp only [List.length_cons]
        congr 1
        omega
      | nothing => rfl
      | fail m => rfl

/-- A pass over the two positional handlers claims the token for the first
`arg` whose accumulator is still empty. -/
lemma positional_pass (args : List String) (pos : Nat) (t : String) (ka kb : String)
    (hget : args[pos]? = some t) (accA accB : List Claimed) :
    doScanPass [arg ka, arg kb] [accA, accB] args pos
      = if accA.length = 0 then .claimedAt 0 ⟨[t], none⟩
        else if accB.length = 0 then .claimedAt 1 ⟨[t], none⟩
        else .nothing := by
  have hpos : pos < args.length := (List.getElem?_eq_some.mp hget).1
  have hgetd : args.getD pos "" = t := by
    rw [List.getD_eq_getElem?_getD, hget]
    rfl
  by_cases hA : accA.length = 0
  · have hscanA : (arg ka).scan args pos accA = .claimed ⟨[t], none⟩ := by
      unfold arg
      dsimp only
      rw [if_neg (by push_neg; omega), hgetd]
    rw [doScanPass]
    simp only [hscanA, if_pos hA]
  · have hscanA : (arg ka).scan args pos accA = .decline := by
      unfold arg
      dsimp only
      rw [if_pos (Or.inl (by omega))]
    by_cases hB : accB.length = 0
    · have hscanB : (arg kb).scan args pos accB = .claimed ⟨[t], none⟩ := by
        unfold arg
        dsimp only
        rw [if_neg (by push_neg; omega), hgetd]
      rw [doScanPass]
      simp only [hscanA]
      rw [doScanPass]
      simp only [hscanB, if_neg hA, if_pos hB]
    · have hscanB : (arg kb).scan args pos accB = .decline := by
        unfold arg
        dsimp only
        rw [if_pos (Or.inl (by omega))]
      rw [doScanPass]
      simp only [hscanA]
      rw [doScanPass]
      simp only [hscanB, if_neg hA, if_neg hB]
      rfl

/-- Scanning a run of flag-activating tokens advances the position across
them, each one claimed by a flag; the positional accumulators are untouched. -/
lemma doScanLoop_flags (flags : List (List String × String)) (ka kb : String)
    (args : List String) (rest : List String) :
    ∀ (u : List String) (fuel pos : Nat) (faccs : List (List Claimed))
      (accA accB : List Claimed),
    faccs.length = flags.length →
    args.drop pos = u ++ rest →
    (∀ t ∈ u, IsFlagToken flags t) →
    u.length < fuel →
    ∃ fuel2 faccs2, faccs2.length = flags.length ∧ fuel2 + u.length = fuel ∧
      doScanLoop (flagHandlers flags ++ [arg ka, arg kb]) args fuel pos (faccs ++ [accA, accB])
        = doScanLoop (flagHandlers flags ++ [arg ka, arg kb]) args fuel2 (pos + u.length)
            (faccs2 ++ [accA, accB]) := by
  intro u
  induction u with
  | nil =>
    intro fuel pos faccs accA accB hlen _ _ _
    exact ⟨fuel, faccs, hlen, by simp, by simp⟩
  | cons t u2 ihu =>
    intro fuel pos faccs accA accB hlen hdrop hall hfuel
    cases fuel with
    | zero => omega
    | succ f =>
      have hget : args[pos]? = some t := by
        have h0 : (args.drop pos)[0]? = some t := by rw [hdrop]; simp
        rw [List.getElem?_drop] at h0
        simpa using h0
      have hpos : pos < args.length := (List.getElem?_eq_some.mp hget).1
      obtain ⟨i, hi, hpass⟩ := flagHandlers_pass_claims args pos t hget flags
        [arg ka, arg kb] faccs [accA, accB] hlen (hall t (by simp))
      have hstep : doScanLoop (flagHandlers flags ++ [arg ka, arg kb]) args (f + 1) pos
          (faccs ++ [accA, accB])
          = doScanLoop (flagHandlers flags ++ [arg ka, arg kb]) args f (pos + 1)
              (appendAcc faccs i ⟨[t], none⟩ ++ [accA, accB]) := by
        rw [doScanLoop]
        rw [if_pos hpos]
        simp only [hpass]
        rw [appendAcc_append_left _ _ _ _ (by omega)]
        rfl
      have hdrop2 : args.drop (pos + 1) = u2 ++ rest := by
        rw [← List.tail_drop, hdrop]
        rfl
      obtain ⟨fuel2, faccs2, hlen2, hfe, hrec⟩ := ihu f (pos + 1)
        (appendAcc faccs i ⟨[t], none⟩) accA accB
        (by rw [appendAcc_length]; exact hlen)
        hdrop2 (fun t2 hm => hall t2 (by simp [hm]))
        (by simp only [List.length_cons] at hfuel; omega)
      have hfe2 : fuel2 + (t :: u2).length = f + 1 := by
        simp only [List.length_cons]
        omega
      refine ⟨fuel2, faccs2, hlen2, hfe2, ?_⟩
      rw [hstep, hrec]
      congr 1
      simp only [List.length_cons]
      omega

/-- Scanning a non-flag token with the first positional accumulator still
empty assigns it to the first `arg` handler. -/
lemma doScanLoop_pos_first (flags : List (List String × String)) (ka kb : String)
    (args : List String) (t : String) (tail : List String) (f pos : Nat)
    (faccs : List (List Claimed)) (accB : List Claimed)
    (hlen : faccs.length = flags.length)
    (hdrop : args.drop pos = t :: tail)
    (hft : ¬ IsFlagToken flags t) :
    doScanLoop (flagHandlers flags ++ [arg ka, arg kb]) args (f + 1) pos
        (faccs ++ [[], accB])
      = doScanLoop (flagHandlers flags ++ [arg ka, arg kb]) args f (pos + 1)
          (faccs ++ [[⟨[t], none⟩], accB]) := by
  have hget : args[pos]? = some t := by
    have h0 : (args.drop pos)[0]? = some t := by rw [hdrop]; simp
    rw [List.getElem?_drop] at h0
    simpa using h0
  have hpos : pos < args.length := (List.getElem?_eq_some.mp hget).1
  have hpass := flagHandlers_pass_declines args pos t hget flags
    [arg ka, arg kb] faccs [[], accB] hlen hft
  rw [positional_pass args pos t ka kb hget [] accB] at hpass
  simp only [List.length_nil, reduceIte] at hpass
  rw [doScanLoop]
  rw [if_pos hpos]
  simp only [hpass]
  have happ : appendAcc (faccs ++ [[], accB]) (faccs.length + 0) ⟨[t], none⟩
      = faccs ++ [[⟨[t], none⟩], accB] := by
    rw [appendAcc_append_right]
    rfl
  rw [show flags.length + 0 = faccs.length + 0 by omega, happ]
  rfl

/-- Scanning a non-flag token with the first positional accumulator already
filled and the second still empty assigns it to the second `arg` handler. -/
lemma doScanLoop_pos_second (flags : List (List String × String)) (ka kb : String)
    (args : List String) (t : String) (tail : List String) (f pos : Nat)
    (faccs : List (List Claimed)) (accA : List Claimed)
    (hlen : faccs.length = flags.length)
    (hA : accA ≠ [])
    (hdrop : args.drop pos = t :: tail)
    (hft : ¬ IsFlagToken flags t) :
    doScanLoop (flagHandlers flags ++ [arg ka, arg kb]) args (f + 1) pos
        (faccs ++ [accA, []])
      = doScanLoop (flagHandlers flags ++ [arg ka, arg kb]) args f (pos + 1)
          (faccs ++ [accA, [⟨[t], none⟩]]) := by
  have hget : args[pos]? = some t := by
    have h0 : (args.drop pos)[0]? = some t := by rw [hdrop]; simp
    rw [List.getElem?_drop] at h0
    simpa using h0
  have hpos : pos < args.length := (List.getElem?_eq_some.mp hget).1
  have hAlen : ¬ accA.length = 0 := by
    intro h0
    exact hA (List.length_eq_zero.mp h0)
  have hpass := flagHandlers_pass_declines args pos t hget flags
    [arg ka, arg kb] faccs [accA, []] hlen hft
  rw [positional_pass args pos t ka kb hget accA []] at hpass
  simp only [List.length_nil, if_neg hAlen, reduceIte] at hpass
  rw [doScanLoop]
  rw [if_pos hpos]
  simp only [hpass]
  have happ : appendAcc (faccs ++ [accA, []]) (faccs.length + 1) ⟨[t], none⟩
      = faccs ++ [accA, [⟨[t], none⟩]] := by
    rw [appendAcc_append_right]
    rfl
  rw [show flags.length + 1 = faccs.length + 1 by omega, happ]
  rfl

/-- At the end of the token stream the loop returns immediately. -/
lemma doScanLoop_at_end (hs : List Handler) (args : List String) (f pos : Nat)
    (accs : List (List Claimed)) (hdrop : args.drop pos = [])
    (hle : pos ≤ args.length) :
    doScanLoop hs args (f + 1) pos accs = .ok (pos, accs) ∧ pos = args.length := by
  have hlen : args.length ≤ pos := List.drop_eq_nil_iff.mp hdrop
  constructor
  · rw [doScanLoop]
    rw [if_neg (by omega)]
  · omega

/-- C1 (amended): with every flag handler declared before the two positional
handlers `arg ka`, `arg kb` (in that order), scanning any interleaving
`u1 ++ [x] ++ u2 ++ [y] ++ u3` of the two positional tokens with
flag-activating tokens consumes the whole stream and assigns exactly `[x]` to
the first `arg` and `[y]` to the second, whose extracted values are then `x`
and `y`.  (As stated over all declaration placements the claim fails: see the
counterexample, where an `arg` declared before the flag claims the activator
token itself.) -/
theorem positional_binding_flags_first
    (flags : List (List String × String)) (ka kb : String)
    (u1 u2 u3 : List String) (x y : String)
    (hu1 : ∀ t ∈ u1, IsFlagToken flags t)
    (hu2 : ∀ t ∈ u2, IsFlagToken flags t)
    (hu3 : ∀ t ∈ u3, IsFlagToken flags t)
    (hx : ¬ IsFlagToken flags x)
    (hy : ¬ IsFlagToken flags y) :
    ∃ faccs, faccs.length = flags.length ∧
      doScan (flagHandlers flags ++ [arg ka, arg kb]) (u1 ++ x :: u2 ++ y :: u3) 0
        = .ok ((u1 ++ x :: u2 ++ y :: u3).length, faccs ++ [[⟨[x], none⟩], [⟨[y], none⟩]])
      ∧ (arg ka).value [⟨[x], none⟩] = .val (.str x)
      ∧ (arg kb).value [⟨[y], none⟩] = .val (.str y) := by
  have hlentotal : (u1 ++ x :: u2 ++ y :: u3).length
      = u1.length + u2.length + u3.length + 2 := by
    simp [List.length_append, List.length_cons]
    omega
  have hfl : ((flagHandlers flags).map fun _ => ([] : List Claimed)).length = flags.length := by
    simp [flagHandlers]
  have hdrop0 : (u1 ++ x :: u2 ++ y :: u3).drop 0 = u1 ++ (x :: (u2 ++ y :: u3)) := by
    simp
  obtain ⟨f1, faccs1, hlen1, hfe1, heq1⟩ := doScanLoop_flags flags ka kb
    (u1 ++ x :: u2 ++ y :: u3) (x :: (u2 ++ y :: u3)) u1
    ((u1 ++ x :: u2 ++ y :: u3).length + 1) 0
    ((flagHandlers flags).map fun _ => []) [] [] hfl hdrop0 hu1 (by omega)
  rw [Nat.zero_add] at heq1
  cases f1 with
  | zero => omega
  | succ f1s =>
  have hdropx : (u1 ++ x :: u2 ++ y :: u3).drop u1.length = x :: (u2 ++ y :: u3) := by
    rw [show u1 ++ x :: u2 ++ y :: u3 = u1 ++ (x :: (u2 ++ y :: u3)) by simp]
    exact List.drop_left u1 _
  have heq2 := doScanLoop_pos_first flags ka kb (u1 ++ x :: u2 ++ y :: u3) x
    (u2 ++ y :: u3) f1s u1.length faccs1 [] hlen1 hdropx hx
  have hdrop2 : (u1 ++ x :: u2 ++ y :: u3).drop (u1.length + 1) = u2 ++ (y :: u3) := by
    rw [show u1 ++ x :: u2 ++ y :: u3 = (u1 ++ [x]) ++ (u2 ++ (y :: u3)) by simp]
    rw [show u1.length + 1 = (u1 ++ [x]).length by simp]
    exact List.drop_left _ _
  obtain ⟨f2, faccs2, hlen2, hfe2, heq3⟩ := doScanLoop_flags flags ka kb
    (u1 ++ x :: u2 ++ y :: u3) (y :: u3) u2 f1s (u1.length + 1)
    faccs1 [⟨[x], none⟩] [] hlen1 hdrop2 hu2
    (by rw [hlentotal] at hfe1; omega)
  cases f2 with
  | zero => rw [hlentotal] at hfe1; omega
  | succ f2s =>
  have hdropy : (u1 ++ x :: u2 ++ y :: u3).drop (u1.length + 1 + u2.length) = y :: u3 := by
    rw [show u1 ++ x :: u2 ++ y :: u3 = ((u1 ++ [x]) ++ u2) ++ (y :: u3) by simp]
    rw [show u1.length + 1 + u2.length = ((u1 ++ [x]) ++ u2).length by
      simp only [List.length_append, List.length_cons, List.length_nil]]
    exact List.drop_left _ _
  have heq4 := doScanLoop_pos_second flags ka kb (u1 ++ x :: u2 ++ y :: u3) y
    u3 f2s (u1.length + 1 + u2.length) faccs2 [⟨[x], none⟩] hlen2
    (by exact List.cons_ne_nil _ _) hdropy hy
  have hdrop3 : (u1 ++ x :: u2 ++ y :: u3).drop (u1.length + 1 + u2.length + 1) = u3 := by
    rw [show u1 ++ x :: u2 ++ y :: u3 = ((u1 ++ [x]) ++ u2 ++ [y]) ++ u3 by simp]
    rw [show u1.length + 1 + u2.length + 1 = ((u1 ++ [x]) ++ u2 ++ [y]).length by
      simp only [List.length_append, List.length_cons, List.length_nil]]
    exact List.drop_left _ _
  obtain ⟨f3, faccs3, hlen3, hfe3, heq5⟩ := doScanLoop_flags flags ka kb
    (u1 ++ x :: u2 ++ y :: u3) [] u3 f2s (u1.length + 1 + u2.length + 1)
    faccs2 [⟨[x], none⟩] [⟨[y], none⟩] hlen2 (by simpa using hdrop3) hu3
    (by rw [hlentotal] at hfe1; omega)
  cases f3 with
  | zero => rw [hlentotal] at hfe1; omega
  | succ f3s =>
  have hdropend : (u1 ++ x :: u2 ++ y :: u3).drop (u1.length + 1 + u2.length + 1 + u3.length)
      = [] := by
    apply List.drop_eq_nil_iff.mpr
    omega
  obtain ⟨hend, hposend⟩ := doScanLoop_at_end (flagHandlers flags ++ [arg ka, arg kb])
    (u1 ++ x :: u2 ++ y :: u3) f3s (u1.length + 1 + u2.length + 1 + u3.length)
    (faccs3 ++ [[⟨[x], none⟩], [⟨[y], none⟩]]) hdropend (by omega)
  refine ⟨faccs3, hlen3, ?_, rfl, rfl⟩
  unfold doScan
  have hmapinit : ((flagHandlers flags ++ [arg ka, arg kb]).map fun _ => ([] : List Claimed))
      = ((flagHandlers flags).map fun _ => []) ++ [[], []] := by
    simp
  rw [hmapinit, heq1, heq2, heq3, heq4]
  rw [show u1.length + 1 + u2.length + 1 + u3.length
      = u1.length + 1 + u2.length + 1 + u3.length from rfl] at heq5
  rw [heq5, hend]
  dsimp only
  rw [if_neg (by rintro ⟨h1, _⟩; omega)]
  rw [hposend]

/-- Witness for the amended C1 theorem: `flag("-v")` declared first, input
`["-v","x","y"]` binds `a="x"`, `b="y"` with the whole stream consumed. -/
theorem positional_binding_flags_first_witness :
    ∃ faccs, faccs.length = 1 ∧
      doScan (flagHandlers [(["-v"], "v")] ++ [arg "a", arg "b"])
          (["-v"] ++ "x" :: [] ++ "y" :: []) 0
        = .ok ((["-v"] ++ "x" :: [] ++ "y" :: []).length,
            faccs ++ [[⟨["x"], none⟩], [⟨["y"], none⟩]])
      ∧ (arg "a").value [⟨["x"], none⟩] = .val (.str "x")
      ∧ (arg "b").value [⟨["y"], none⟩] = .val (.str "y") :=
  positional_binding_flags_first [(["-v"], "v")] "a" "b" ["-v"] [] [] "x" "y"
    (by
      intro t hm
      rw [List.mem_singleton] at hm
      subst hm
      exact ⟨(["-v"], "v"), by simp, by simp [effectiveActivators]⟩)
    (by intro t hm; cases hm)
    (by intro t hm; cases hm)
    (by
      rintro ⟨p, hp, hmem⟩
      rw [List.mem_singleton] at hp
      subst hp
      simp [effectiveActivators] at hmem)
    (by
      rintro ⟨p, hp, hmem⟩
      rw [List.mem_singleton] at hp
      subst hp
      simp [effectiveActivators] at hmem)

end SwlArg
